import Mathlib

/-!
Verification development for the cugraph single-GPU graph representation core
(`cugraph/structure/graph_implementation/simpleGraph.py`).

The data model and the operations of `simpleGraphImpl` are shallowly embedded
below: dataframe columns become Lean lists, the mutable fields of a
`simpleGraphImpl` instance become a `GraphState` record, and each method whose
behaviour a claim mentions becomes a Lean function over that record.  Code that
the repository imports from modules outside the analysed sources
(`NumberMap.renumber`, `cugraph.structure.symmetrize.symmetrize`,
`graph_primtypes_wrapper`) is modelled from the specification text; each such
definition carries a doc comment saying so.
-/

namespace Cugraph

/-! ## Identifier renumbering (NumberMap), modelled from the spec -/

/-- Modelled from the spec: `NumberMap.renumber` (in
`cugraph/structure/number_map.py`, not among the analysed sources) builds the
distinct set of external identifiers appearing in either the source or the
destination column, in a deterministic (first appearance) order, and assigns
the internal IDs `0..V-1` to be the positions in that table. -/
def buildRenumberMap (src dst : List Nat) : List Nat :=
  (src ++ dst).dedup

/-- Modelled from the spec: `to_internal_vertex_id` looks an external
identifier up in the renumbering table; an identifier absent from the table
produces no internal ID (the callers in `simpleGraph.py` observe this as an
empty / null lookup result). -/
def to_internal_vertex_id (m : List Nat) (x : Nat) : Option Nat :=
  if x ∈ m then some (m.indexOf x) else none

/-- Modelled from the spec: `from_internal_vertex_id` is the inverse ordered
table, index = internal ID. -/
def from_internal_vertex_id (m : List Nat) (i : Nat) : Option Nat :=
  m[i]?

theorem buildRenumberMap_nodup (src dst : List Nat) :
    (buildRenumberMap src dst).Nodup := List.nodup_dedup _

theorem renumber_roundtrip_aux (src dst : List Nat) :
    ∀ x ∈ buildRenumberMap src dst,
      (to_internal_vertex_id (buildRenumberMap src dst) x).bind
        (from_internal_vertex_id (buildRenumberMap src dst)) = some x := by
  intro x hx
  simp only [to_internal_vertex_id, if_pos hx, Option.bind_some,
    from_internal_vertex_id]
  exact List.getElem?_indexOf hx

theorem renumber_indexOf_range_aux (src dst : List Nat) :
    (buildRenumberMap src dst).map
        (fun x => (buildRenumberMap src dst).indexOf x) =
      List.range (buildRenumberMap src dst).length := by
  set m := buildRenumberMap src dst with hm
  have hnd : m.Nodup := buildRenumberMap_nodup src dst
  apply List.ext_getElem
  · simp
  · intro i h1 h2
    simp only [List.getElem_map, List.getElem_range]
    exact List.indexOf_getElem hnd i _

/-- C1: for every set of external vertex identifiers used to build a graph with
renumbering (the identifiers appearing in the source/destination columns),
translating an external ID to its internal ID and back is the identity for
every identifier in the map, and the assigned internal IDs are exactly the
contiguous range `[0, V)` with no gaps or repeats: mapping `to_internal` over
the table of external identifiers yields precisely `some 0, …, some (V-1)`. -/
theorem renumbering_roundtrip_contiguous (src dst : List Nat) :
    (∀ x ∈ buildRenumberMap src dst,
      (to_internal_vertex_id (buildRenumberMap src dst) x).bind
        (from_internal_vertex_id (buildRenumberMap src dst)) = some x)
    ∧ (buildRenumberMap src dst).map
        (to_internal_vertex_id (buildRenumberMap src dst)) =
      (List.range (buildRenumberMap src dst).length).map some := by
  refine ⟨renumber_roundtrip_aux src dst, ?_⟩
  have h1 : (buildRenumberMap src dst).map
      (to_internal_vertex_id (buildRenumberMap src dst)) =
      (buildRenumberMap src dst).map
        (fun x => some ((buildRenumberMap src dst).indexOf x)) :=
    List.map_congr_left fun x hx => by simp [to_internal_vertex_id, hx]
  rw [h1, ← renumber_indexOf_range_aux src dst, List.map_map]
  rfl

theorem renumbering_roundtrip_contiguous_witness :
    (to_internal_vertex_id (buildRenumberMap [7, 3] [7]) 3).bind
      (from_internal_vertex_id (buildRenumberMap [7, 3] [7])) = some 3 :=
  (renumbering_roundtrip_contiguous [7, 3] [7]).1 3 (by decide)

/-! ## The symmetrization pipeline, modelled from the spec

`cugraph.structure.symmetrize.symmetrize` is imported by `simpleGraph.py` but
its module is not among the analysed sources.  A row of the edge dataframe is
`((u, v), w)`: the vertex pair together with the value carried in the weight
column (`0` throughout for unweighted graphs, whose weight column is absent
and never read). -/

/-- Modelled from the spec: the emission step of symmetrization.  For every
input edge `(u,v,attr)` with `u ≠ v` it emits both `(u,v,attr)` and
`(v,u,attr)`; self-loops `(u,u,attr)` are emitted once, not doubled. -/
def symmetrizeEmit (rows : List ((Nat × Nat) × Nat)) : List ((Nat × Nat) × Nat) :=
  rows.flatMap fun r =>
    if r.1.1 = r.1.2 then [r] else [r, ((r.1.2, r.1.1), r.2)]

/-- Sum of the weight values carried by the rows whose vertex pair is `k`. -/
def weightSum (k : Nat × Nat) (rows : List ((Nat × Nat) × Nat)) : Nat :=
  ((rows.filter fun r => r.1 = k).map Prod.snd).sum

/-- Modelled from the spec: deduplication merges duplicate `(u,v)` pairs into
one edge, keeping the distinct pairs in order of first appearance with the
weights of all merged instances summed. -/
def mergeDuplicates (rows : List ((Nat × Nat) × Nat)) : List ((Nat × Nat) × Nat) :=
  (rows.map Prod.fst).dedup.map fun k => (k, weightSum k rows)

/-- Modelled from the spec: `symmetrize(source, destination, attrs?, multi_edge,
make_symmetric)`.  If `make_symmetric` is false (directed graph request) this
is the identity path; otherwise edges are emitted in both directions and, when
`multi_edge` is false, duplicates are merged. -/
def symmetrizeCore (multi mksym : Bool) (rows : List ((Nat × Nat) × Nat)) :
    List ((Nat × Nat) × Nat) :=
  if mksym then
    if multi then symmetrizeEmit rows else mergeDuplicates (symmetrizeEmit rows)
  else rows

theorem symmetrizeEmit_cons (r : (Nat × Nat) × Nat) (t : List ((Nat × Nat) × Nat)) :
    symmetrizeEmit (r :: t) =
      (if r.1.1 = r.1.2 then [r] else [r, ((r.1.2, r.1.1), r.2)]) ++
        symmetrizeEmit t := by
  simp [symmetrizeEmit]

theorem weightSum_nil (k : Nat × Nat) : weightSum k [] = 0 := rfl

theorem weightSum_cons (k : Nat × Nat) (r : (Nat × Nat) × Nat)
    (t : List ((Nat × Nat) × Nat)) :
    weightSum k (r :: t) = (if r.1 = k then r.2 else 0) + weightSum k t := by
  by_cases h : r.1 = k
  · simp [weightSum, List.filter_cons, h]
  · simp [weightSum, List.filter_cons, h]

theorem weightSum_append (k : Nat × Nat) (l₁ l₂ : List ((Nat × Nat) × Nat)) :
    weightSum k (l₁ ++ l₂) = weightSum k l₁ + weightSum k l₂ := by
  simp [weightSum, List.filter_append]

theorem weightSum_symmetrizeEmit_ne {u v : Nat} (h : u ≠ v)
    (rows : List ((Nat × Nat) × Nat)) :
    weightSum (u, v) (symmetrizeEmit rows) =
      weightSum (u, v) rows + weightSum (v, u) rows := by
  induction rows with
  | nil => rfl
  | cons r t ih =>
    obtain ⟨⟨a, b⟩, w⟩ := r
    rw [symmetrizeEmit_cons, weightSum_append, weightSum_cons, weightSum_cons]
    by_cases hab : a = b
    · subst hab
      rw [if_pos rfl, weightSum_cons, weightSum_nil, ih]
      simp only [Prod.mk.injEq]
      split_ifs <;> omega
    · rw [if_neg hab, weightSum_cons, weightSum_cons, weightSum_nil, ih]
      simp only [Prod.mk.injEq]
      split_ifs <;> omega

theorem weightSum_symmetrizeEmit_loop (u : Nat)
    (rows : List ((Nat × Nat) × Nat)) :
    weightSum (u, u) (symmetrizeEmit rows) = weightSum (u, u) rows := by
  induction rows with
  | nil => rfl
  | cons r t ih =>
    obtain ⟨⟨a, b⟩, w⟩ := r
    rw [symmetrizeEmit_cons, weightSum_append, weightSum_cons, ih]
    by_cases hab : a = b
    · subst hab
      rw [if_pos rfl, weightSum_cons, weightSum_nil]
      omega
    · rw [if_neg hab, weightSum_cons, weightSum_cons, weightSum_nil]
      simp only [Prod.mk.injEq]
      split_ifs <;> omega

theorem mem_keys_symmetrizeEmit (u v : Nat) (rows : List ((Nat × Nat) × Nat)) :
    (u, v) ∈ (symmetrizeEmit rows).map Prod.fst ↔
      ((u, v) ∈ rows.map Prod.fst ∨ (v, u) ∈ rows.map Prod.fst) := by
  induction rows with
  | nil => simp [symmetrizeEmit]
  | cons r t ih =>
    obtain ⟨⟨a, b⟩, w⟩ := r
    rw [symmetrizeEmit_cons]
    by_cases hab : a = b
    · subst hab
      rw [if_pos rfl]
      simp only [List.map_append, List.map_cons, List.map_nil,
        List.singleton_append, List.mem_cons, Prod.mk.injEq] at *
      constructor
      · rintro (⟨rfl, rfl⟩ | hm)
        · exact Or.inl (Or.inl ⟨rfl, rfl⟩)
        · rcases ih.mp hm with hm' | hm'
          · exact Or.inl (Or.inr hm')
          · exact Or.inr (Or.inr hm')
      · rintro ((⟨rfl, rfl⟩ | hm) | (⟨rfl, rfl⟩ | hm))
        · exact Or.inl ⟨rfl, rfl⟩
        · exact Or.inr (ih.mpr (Or.inl hm))
        · exact Or.inl ⟨rfl, rfl⟩
        · exact Or.inr (ih.mpr (Or.inr hm))
    · rw [if_neg hab]
      simp only [List.map_append, List.map_cons, List.map_nil,
        List.cons_append, List.singleton_append, List.mem_cons,
        Prod.mk.injEq] at *
      constructor
      · rintro (⟨rfl, rfl⟩ | ⟨rfl, rfl⟩ | hm)
        · exact Or.inl (Or.inl ⟨rfl, rfl⟩)
        · exact Or.inr (Or.inl ⟨rfl, rfl⟩)
        · rcases ih.mp hm with hm' | hm'
          · exact Or.inl (Or.inr hm')
          · exact Or.inr (Or.inr hm')
      · rintro ((⟨rfl, rfl⟩ | hm) | (⟨rfl, rfl⟩ | hm))
        · exact Or.inl ⟨rfl, rfl⟩
        · exact Or.inr (Or.inr (ih.mpr (Or.inl hm)))
        · exact Or.inr (Or.inl ⟨rfl, rfl⟩)
        · exact Or.inr (Or.inr (ih.mpr (Or.inr hm)))

theorem mem_mergeDuplicates (k : Nat × Nat) (w : Nat)
    (rows : List ((Nat × Nat) × Nat)) :
    (k, w) ∈ mergeDuplicates rows ↔
      (k ∈ rows.map Prod.fst ∧ w = weightSum k rows) := by
  simp only [mergeDuplicates, List.mem_map, List.mem_dedup]
  constructor
  · rintro ⟨k', hk', hkw⟩
    simp only [Prod.mk.injEq] at hkw
    obtain ⟨rfl, rfl⟩ := hkw
    exact ⟨hk', rfl⟩
  · rintro ⟨hk, rfl⟩
    exact ⟨k, hk, rfl⟩

theorem countP_eq_ite_of_nodup (l : List (Nat × Nat)) (hl : l.Nodup)
    (k : Nat × Nat) :
    l.countP (fun x => x = k) = if k ∈ l then 1 else 0 := by
  induction l with
  | nil => simp
  | cons a t ih =>
    obtain ⟨ha, ht⟩ := List.nodup_cons.mp hl
    rw [List.countP_cons]
    by_cases hak : a = k
    · subst hak
      simp [ih ht, ha]
    · simp only [List.mem_cons]
      rw [ih ht]
      by_cases hk : k ∈ t
      · simp [hk, hak]
      · simp [hk, hak, Ne.symm hak]

theorem countP_key_mergeDuplicates (k : Nat × Nat)
    (rows : List ((Nat × Nat) × Nat)) :
    (mergeDuplicates rows).countP (fun r => r.1 = k) =
      if k ∈ rows.map Prod.fst then 1 else 0 := by
  simp only [mergeDuplicates]
  rw [List.countP_map]
  have hfun : ((fun (r : (Nat × Nat) × Nat) => decide (r.1 = k)) ∘
      fun k' => (k', weightSum k' rows)) = fun x => decide (x = k) := by
    funext x; rfl
  rw [hfun, countP_eq_ite_of_nodup _ (List.nodup_dedup _) k]
  by_cases hk : k ∈ rows.map Prod.fst
  · simp [hk]
  · simp [hk]

/-- C2: with `make_symmetric=true` (and `multi_edge=false`, the mode every
non-multigraph undirected construction uses) the symmetrized edge set is
closed under swap — an ordered pair `(u,v)` with `u ≠ v` is present iff
`(v,u)` is present with the identical attribute value; a self-loop `(u,u)`
appears exactly once, not doubled (it is present iff the input contains it,
carrying the sum of the input's `(u,u)` weights, and its row count in the
output is at most one); with `make_symmetric=false` the input edge list passes
through unchanged. -/
theorem symmetrize_closed_under_swap (rows : List ((Nat × Nat) × Nat))
    (u v w : Nat) :
    (u ≠ v →
      ((((u, v), w) ∈ symmetrizeCore false true rows) ↔
        (((v, u), w) ∈ symmetrizeCore false true rows)))
    ∧ ((((u, u), w) ∈ symmetrizeCore false true rows) ↔
        ((u, u) ∈ rows.map Prod.fst ∧ w = weightSum (u, u) rows))
    ∧ ((symmetrizeCore false true rows).countP (fun r => r.1 = (u, u)) =
        if (u, u) ∈ rows.map Prod.fst then 1 else 0)
    ∧ (∀ multi : Bool, symmetrizeCore multi false rows = rows) := by
  refine ⟨?_, ?_, ?_, ?_⟩
  · intro huv
    simp only [symmetrizeCore, Bool.false_eq_true, ite_true, ite_false]
    rw [mem_mergeDuplicates, mem_mergeDuplicates,
      mem_keys_symmetrizeEmit, mem_keys_symmetrizeEmit,
      weightSum_symmetrizeEmit_ne huv, weightSum_symmetrizeEmit_ne (Ne.symm huv)]
    rw [or_comm, Nat.add_comm]
  · simp only [symmetrizeCore, Bool.false_eq_true, ite_true, ite_false]
    rw [mem_mergeDuplicates, mem_keys_symmetrizeEmit,
      weightSum_symmetrizeEmit_loop, or_self]
  · simp only [symmetrizeCore, Bool.false_eq_true, ite_true, ite_false]
    rw [countP_key_mergeDuplicates]
    have hcollapse : ((u, u) ∈ (symmetrizeEmit rows).map Prod.fst) ↔
        ((u, u) ∈ rows.map Prod.fst) := by
      rw [mem_keys_symmetrizeEmit, or_self]
    by_cases hk : (u, u) ∈ rows.map Prod.fst
    · rw [if_pos (hcollapse.mpr hk), if_pos hk]
    · rw [if_neg (fun hc => hk (hcollapse.mp hc)), if_neg hk]
  · intro multi
    simp [symmetrizeCore]

theorem symmetrize_closed_under_swap_witness :
    (((0, 1), 5) ∈ symmetrizeCore false true [((0, 1), 5)]) ↔
      (((1, 0), 5) ∈ symmetrizeCore false true [((0, 1), 5)]) :=
  (symmetrize_closed_under_swap [((0, 1), 5)] 0 1 5).1 (by decide)

/-! ## The graph state

The mutable fields of a `simpleGraphImpl` instance and of its `Properties`
record.  A dataframe of edges is represented by its list of `(src, dst)` rows
together with the optional attribute columns. -/

/-- The distinct raise sites of the embedded operations.  The spec's error
taxonomy maps onto these: `conflictingAttributes` is the spec's
`ConflictingAttributeError` (edge IDs/types together with symmetrization),
`emptyGraph` its `EmptyGraphError`, `tooBig` / `inputTypeError` the
`ValueError`/`TypeError` of the consolidation step. -/
inductive GraphError where
  | colNotFound
  | attrParamConflict
  | attrNotFound
  | badAttrCount
  | conflictingAttributes
  | tooBig
  | inputTypeError
  | renumberFalseUnsupported
  | emptyGraph
  | noEdgelist
deriving DecidableEq, Repr

/-- `simpleGraphImpl.EdgeList`: the `edgelist_df` columns (`src`, `dst`, and
the optional `weights` / `edge_id` / `edge_type` columns). -/
structure EdgeList where
  rows : List (Nat × Nat)
  weights : Option (List Nat)
  edgeIds : Option (List Nat)
  edgeTypes : Option (List Nat)
deriving DecidableEq, Repr

/-- The `EdgeList.weights` boolean of the source (true exactly when the
constructor received a weight column). -/
def EdgeList.weightsFlag (el : EdgeList) : Bool := el.weights.isSome

/-- `simpleGraphImpl.AdjList` (also used for `transposedAdjList`): CSR
offsets, indices and optional weights. -/
structure AdjListRep where
  offsets : List Nat
  indices : List Nat
  adjWeights : Option (List Nat)
deriving DecidableEq, Repr

/-- The fields of a `simpleGraphImpl` instance (plus its `Properties`) that
the analysed methods read or write. -/
structure GraphState where
  edgelist : Option EdgeList
  adjlist : Option AdjListRep
  transposedadjlist : Option AdjListRep
  renumber_map : List Nat
  renumbered : Bool
  directed : Bool
  multi_edge : Bool
  node_count : Option Nat
  edge_count : Option Nat
  weighted : Bool
deriving DecidableEq, Repr

/-- `simpleGraphImpl.nodes()` restricted to what `number_of_vertices` needs:
for a renumbered graph it is the renumbering table (one row per distinct
external identifier); otherwise the distinct values of the concatenated
source and destination columns; with only an adjacency list it is
`arange(number_of_nodes())`. -/
def nodesList (g : GraphState) : List Nat :=
  match g.edgelist with
  | some el =>
    if g.renumbered then g.renumber_map
    else (el.rows.map Prod.fst ++ el.rows.map Prod.snd).dedup
  | none =>
    match g.adjlist with
    | some a => List.range (a.offsets.length - 1)
    | none => []

/-- `simpleGraphImpl.number_of_vertices`: memoized; otherwise derived from the
adjacency offsets (length minus one), the transposed adjacency offsets, or the
node list of the edge list; raises `Graph is Empty` when no representation is
populated. -/
def number_of_vertices (g : GraphState) : Except GraphError (Nat × GraphState) :=
  match g.node_count with
  | some n => .ok (n, g)
  | none =>
    match g.adjlist with
    | some a =>
      .ok (a.offsets.length - 1, { g with node_count := some (a.offsets.length - 1) })
    | none =>
      match g.transposedadjlist with
      | some t =>
        .ok (t.offsets.length - 1,
          { g with node_count := some (t.offsets.length - 1) })
      | none =>
        match g.edgelist with
        | some _ => .ok ((nodesList g).length,
            { g with node_count := some (nodesList g).length })
        | none => .error .emptyGraph

/-- `simpleGraphImpl.number_of_edges(directed_edges)`: with the flag set and a
populated edge list, the raw stored row count; otherwise the memoized count,
computed on first use as the number of rows with `src >= dst` for an
undirected graph, the row count for a directed graph, or the index length of
an adjacency view. -/
def number_of_edges (g : GraphState) (directed_edges : Bool) :
    Except GraphError (Nat × GraphState) :=
  match directed_edges, g.edgelist with
  | true, some el => .ok (el.rows.length, g)
  | _, _ =>
    match g.edge_count with
    | some e => .ok (e, g)
    | none =>
      match g.edgelist with
      | some el =>
        let e := if g.directed = false
          then el.rows.countP (fun r => r.2 ≤ r.1)
          else el.rows.length
        .ok (e, { g with edge_count := some e })
      | none =>
        match g.adjlist with
        | some a =>
          .ok (a.indices.length, { g with edge_count := some a.indices.length })
        | none =>
          match g.transposedadjlist with
          | some t =>
            .ok (t.indices.length,
              { g with edge_count := some t.indices.length })
          | none => .error .emptyGraph

theorem countP_le_split (l : List (Nat × Nat)) :
    l.countP (fun r => r.2 ≤ r.1) =
      l.countP (fun r => r.2 < r.1) + l.countP (fun r => r.1 = r.2) := by
  induction l with
  | nil => rfl
  | cons a t ih =>
    rw [List.countP_cons, List.countP_cons, List.countP_cons, ih]
    rcases a with ⟨x, y⟩
    simp only [decide_eq_true_eq]
    split_ifs <;> omega

theorem countP_ne_split (l : List (Nat × Nat)) :
    l.countP (fun r => ¬ r.1 = r.2) =
      l.countP (fun r => r.2 < r.1) + l.countP (fun r => r.1 < r.2) := by
  induction l with
  | nil => rfl
  | cons a t ih =>
    rw [List.countP_cons, List.countP_cons, List.countP_cons, ih]
    rcases a with ⟨x, y⟩
    simp only [decide_eq_true_eq, decide_not]
    split_ifs <;> simp_all <;> omega

theorem countP_ge_of_symmetric (rows : List (Nat × Nat))
    (hsym : List.Perm (rows.map Prod.swap) rows) :
    rows.countP (fun r => r.2 ≤ r.1) =
      rows.countP (fun r => ¬ r.1 = r.2) / 2 +
        rows.countP (fun r => r.1 = r.2) := by
  have hlt : rows.countP (fun r => r.2 < r.1) =
      rows.countP (fun r => r.1 < r.2) := by
    calc rows.countP (fun r => r.2 < r.1)
        = (rows.map Prod.swap).countP (fun r => r.2 < r.1) :=
          (hsym.countP_eq _).symm
      _ = rows.countP (fun r => r.1 < r.2) := by
          rw [List.countP_map]; rfl
  have hle := countP_le_split rows
  have hne := countP_ne_split rows
  omega

/-- C3: with a populated edge list, `number_of_edges` with the
directed-edges flag returns the raw stored row count; the default call on an
undirected graph (whose stored rows are symmetric under swap) returns the
undirected edge count — half of the stored non-loop rows plus each self-loop
counted once; the default call on a directed graph returns the stored row
count. -/
theorem number_of_edges_spec (g : GraphState) (el : EdgeList)
    (hel : g.edgelist = some el) :
    (number_of_edges g true = .ok (el.rows.length, g))
    ∧ (g.edge_count = none → g.directed = false →
        List.Perm (el.rows.map Prod.swap) el.rows →
        number_of_edges g false =
          .ok (el.rows.countP (fun r => ¬ r.1 = r.2) / 2 +
                el.rows.countP (fun r => r.1 = r.2),
            { g with edge_count := some (el.rows.countP (fun r => r.2 ≤ r.1)) }))
    ∧ (g.edge_count = none → g.directed = true →
        number_of_edges g false =
          .ok (el.rows.length, { g with edge_count := some el.rows.length })) := by
  refine ⟨?_, ?_, ?_⟩
  · simp [number_of_edges, hel]
  · intro hmemo hdir hsym
    have hz := countP_ge_of_symmetric el.rows hsym
    simp [number_of_edges, hel, hmemo, hdir, hz]
  · intro hmemo hdir
    simp [number_of_edges, hel, hmemo, hdir]

theorem number_of_edges_spec_witness :
    number_of_edges
      { edgelist := some ⟨[(0, 1), (1, 0), (2, 2)], none, none, none⟩,
        adjlist := none, transposedadjlist := none, renumber_map := [],
        renumbered := false, directed := false, multi_edge := false,
        node_count := none, edge_count := none, weighted := false } false =
    .ok (2,
      { edgelist := some ⟨[(0, 1), (1, 0), (2, 2)], none, none, none⟩,
        adjlist := none, transposedadjlist := none, renumber_map := [],
        renumbered := false, directed := false, multi_edge := false,
        node_count := none, edge_count := some 2, weighted := false }) := by
  have h := (number_of_edges_spec
    { edgelist := some ⟨[(0, 1), (1, 0), (2, 2)], none, none, none⟩,
      adjlist := none, transposedadjlist := none, renumber_map := [],
      renumbered := false, directed := false, multi_edge := false,
      node_count := none, edge_count := none, weighted := false }
    ⟨[(0, 1), (1, 0), (2, 2)], none, none, none⟩ rfl).2.1 rfl rfl
    (by decide)
  simpa using h

/-- C7: `number_of_vertices` is memoized; when the count is unknown it is
derived from whichever representation exists — adjacency (or transposed
adjacency) offsets length minus one, or the distinct-identifier count of the
coordinate view — and it fails with the empty-graph error when no
representation is populated; a repeated call returns the same value. -/
theorem number_of_vertices_spec (g : GraphState) :
    (∀ n, g.node_count = some n → number_of_vertices g = .ok (n, g))
    ∧ (∀ a, g.node_count = none → g.adjlist = some a →
        number_of_vertices g =
          .ok (a.offsets.length - 1,
            { g with node_count := some (a.offsets.length - 1) }))
    ∧ (∀ t, g.node_count = none → g.adjlist = none →
        g.transposedadjlist = some t →
        number_of_vertices g =
          .ok (t.offsets.length - 1,
            { g with node_count := some (t.offsets.length - 1) }))
    ∧ (∀ el, g.node_count = none → g.adjlist = none →
        g.transposedadjlist = none → g.edgelist = some el →
        number_of_vertices g =
          .ok ((nodesList g).length,
            { g with node_count := some (nodesList g).length }))
    ∧ (g.node_count = none → g.adjlist = none → g.transposedadjlist = none →
        g.edgelist = none → number_of_vertices g = .error .emptyGraph)
    ∧ (∀ n g', number_of_vertices g = .ok (n, g') →
        number_of_vertices g' = .ok (n, g')) := by
  refine ⟨?_, ?_, ?_, ?_, ?_, ?_⟩
  · intro n hn; simp [number_of_vertices, hn]
  · intro a hn ha; simp [number_of_vertices, hn, ha]
  · intro t hn ha ht; simp [number_of_vertices, hn, ha, ht]
  · intro el hn ha ht hel; simp [number_of_vertices, hn, ha, ht, hel]
  · intro hn ha ht hel; simp [number_of_vertices, hn, ha, ht, hel]
  · intro n g' hok
    match hn : g.node_count with
    | some m =>
      simp only [number_of_vertices, hn] at hok
      obtain ⟨h1, h2⟩ := Prod.ext_iff.mp (Except.ok.inj hok)
      subst h1; subst h2
      simp [number_of_vertices, hn]
    | none =>
      match ha : g.adjlist with
      | some a =>
        simp only [number_of_vertices, hn, ha] at hok
        obtain ⟨h1, h2⟩ := Prod.ext_iff.mp (Except.ok.inj hok)
        subst h1; subst h2
        simp [number_of_vertices]
      | none =>
        match ht : g.transposedadjlist with
        | some t =>
          simp only [number_of_vertices, hn, ha, ht] at hok
          obtain ⟨h1, h2⟩ := Prod.ext_iff.mp (Except.ok.inj hok)
          subst h1; subst h2
          simp [number_of_vertices]
        | none =>
          match hel : g.edgelist with
          | some el =>
            simp only [number_of_vertices, hn, ha, ht, hel] at hok
            obtain ⟨h1, h2⟩ := Prod.ext_iff.mp (Except.ok.inj hok)
            subst h1; subst h2
            simp [number_of_vertices]
          | none =>
            simp [number_of_vertices, hn, ha, ht, hel] at hok

theorem number_of_vertices_spec_witness :
    number_of_vertices
      { edgelist := none, adjlist := some ⟨[0, 1, 2], [1, 0], none⟩,
        transposedadjlist := none, renumber_map := [], renumbered := false,
        directed := true, multi_edge := false, node_count := none,
        edge_count := none, weighted := false } =
    .ok (2,
      { edgelist := none, adjlist := some ⟨[0, 1, 2], [1, 0], none⟩,
        transposedadjlist := none, renumber_map := [], renumbered := false,
        directed := true, multi_edge := false, node_count := some 2,
        edge_count := none, weighted := false }) := by
  have h := (number_of_vertices_spec
    { edgelist := none, adjlist := some ⟨[0, 1, 2], [1, 0], none⟩,
      transposedadjlist := none, renumber_map := [], renumbered := false,
      directed := true, multi_edge := false, node_count := none,
      edge_count := none, weighted := false }).2.1
    ⟨[0, 1, 2], [1, 0], none⟩ rfl rfl
  simpa using h

/-! ## Structural queries: neighbors and degree -/

/-- `simpleGraphImpl.neighbors(n)`: raises when there is no edge list; on a
renumbered graph it translates `n` to an internal ID — an identifier without a
translation yields an empty result (`if len(node) == 0: return
cudf.Series(dtype="int")`) — then selects the destination column of the rows
whose source equals the internal ID and translates the result back. -/
def neighbors (g : GraphState) (n : Nat) : Except GraphError (List Nat) :=
  match g.edgelist with
  | none => .error .noEdgelist
  | some el =>
    if g.renumbered then
      match to_internal_vertex_id g.renumber_map n with
      | none => .ok []
      | some i =>
        .ok (((el.rows.filter fun r => r.1 = i).map Prod.snd).filterMap
          (from_internal_vertex_id g.renumber_map))
    else
      .ok ((el.rows.filter fun r => r.1 = n).map Prod.snd)

/-- The edge list of the concrete renumbered two-vertex graph used to
instantiate the neighbor/degree theorems: one internal edge `0 → 1` between
the external identifiers `10` and `20`. -/
def elExample : EdgeList := ⟨[(0, 1)], none, none, none⟩

/-- A concrete renumbered graph: external identifiers `10, 20`, one stored
edge `10 → 20`. -/
def gExample : GraphState :=
  { edgelist := some elExample, adjlist := none, transposedadjlist := none,
    renumber_map := [10, 20], renumbered := true, directed := true,
    multi_edge := false, node_count := none, edge_count := none,
    weighted := false }

/-- C5 counterexample: for the concrete renumbered graph `gExample` and the
identifier `99`, which is absent from the renumbering map, `neighbors` returns
an empty sequence successfully — it does not fail with an unknown-identifier
error as the claim states. -/
theorem neighbors_unknown_returns_empty_cex :
    99 ∉ gExample.renumber_map ∧ neighbors gExample 99 = Except.ok [] := by
  constructor
  · decide
  · rfl

/-- C5 (amended): on a renumbered graph with a populated edge list,
`neighbors(v)` returns an empty sequence — not an error — when `v` has no
internal translation (absent from the renumbering map); when `v` translates to
internal ID `i` the result is the forward-adjacency row of `i` (destinations
of the stored rows with source `i`) translated back to external identifiers,
and in particular an empty sequence when `v` has no outgoing edges. -/
theorem neighbors_spec (g : GraphState) (el : EdgeList)
    (hel : g.edgelist = some el) (hr : g.renumbered = true) :
    (∀ n, to_internal_vertex_id g.renumber_map n = none →
      neighbors g n = .ok [])
    ∧ (∀ n i, to_internal_vertex_id g.renumber_map n = some i →
        neighbors g n =
          .ok (((el.rows.filter fun r => r.1 = i).map Prod.snd).filterMap
            (from_internal_vertex_id g.renumber_map)))
    ∧ (∀ n i, to_internal_vertex_id g.renumber_map n = some i →
        (el.rows.filter fun r => r.1 = i) = [] → neighbors g n = .ok []) := by
  refine ⟨?_, ?_, ?_⟩
  · intro n hn; simp [neighbors, hel, hr, hn]
  · intro n i hn; simp [neighbors, hel, hr, hn]
  · intro n i hn hrow; simp [neighbors, hel, hr, hn, hrow]

theorem neighbors_spec_witness :
    neighbors gExample 10 =
      .ok (((elExample.rows.filter fun r => r.1 = 0).map Prod.snd).filterMap
        (from_internal_vertex_id gExample.renumber_map)) :=
  (neighbors_spec gExample elExample rfl rfl).2.1 10 0 (by decide)

/-- The degree direction selector of `graph_primtypes_wrapper.Direction`. -/
inductive Direction where
  | IN
  | OUT
  | ALL
deriving DecidableEq, Repr

/-- The number of internal vertex rows the degree wrapper produces (for a
renumbered graph: one per renumbering-table entry). -/
def internalVertexCount (g : GraphState) : Nat :=
  if g.renumbered then g.renumber_map.length else (nodesList g).length

/-- Per-vertex edge count of the stored edge list in a given direction. -/
def degreeCount (el : EdgeList) (dir : Direction) (i : Nat) : Nat :=
  match dir with
  | .OUT => el.rows.countP fun r => r.1 = i
  | .IN => el.rows.countP fun r => r.2 = i
  | .ALL => (el.rows.countP fun r => r.1 = i) +
      (el.rows.countP fun r => r.2 = i)

/-- Modelled from the spec: `graph_primtypes_wrapper._degree` (the module is
not among the analysed sources) returns one `(internal vertex, degree)` row
per internal vertex, the degree being the adjacency offset difference of the
requested direction — expressed here as the equivalent per-vertex count over
the stored edge rows. -/
def wrapperDegree (g : GraphState) (dir : Direction) : List (Nat × Nat) :=
  match g.edgelist with
  | some el =>
    (List.range (internalVertexCount g)).map fun i => (i, degreeCount el dir i)
  | none => []

/-- `simpleGraphImpl._degree(vertex_subset, direction)`: takes the wrapper's
per-internal-vertex degree rows, keeps the rows whose vertex appears in the
node list (`df["vertex"].isin(nodes)`), restricts to the requested subset
after translating it to internal IDs, and translates the surviving rows back
to external identifiers. -/
def degreeQuery (g : GraphState) (vertex_subset : Option (List Nat))
    (dir : Direction) : List (Nat × Nat) :=
  let df := wrapperDegree g dir
  let ns := if g.renumbered then List.range g.renumber_map.length
    else nodesList g
  let df1 := df.filter fun r => r.1 ∈ ns
  let df2 := match vertex_subset with
    | none => df1
    | some s =>
      let s' := if g.renumbered
        then s.filterMap (to_internal_vertex_id g.renumber_map)
        else s
      df1.filter fun r => r.1 ∈ s'
  if g.renumbered then
    df2.filterMap fun r =>
      (from_internal_vertex_id g.renumber_map r.1).map fun x => (x, r.2)
  else df2

/-- C6 counterexample: for the concrete renumbered graph `gExample` and the
subset `[99]`, whose only element was never an edge endpoint (absent from the
renumbering map), the degree query returns an empty result — it does not fail
with an unknown-identifier error as the claim states, nor does it report a
zero degree for `99`. -/
theorem degree_unknown_silently_dropped_cex :
    99 ∉ gExample.renumber_map ∧
      degreeQuery gExample (some [99]) Direction.OUT = [] := by
  constructor
  · decide
  · rfl

theorem degreeQuery_result_keys_in_map (g : GraphState)
    (s : Option (List Nat)) (dir : Direction) (hr : g.renumbered = true) :
    ∀ z d, (z, d) ∈ degreeQuery g s dir → z ∈ g.renumber_map := by
  intro z d hmem
  simp only [degreeQuery, hr, if_pos, ite_true] at hmem
  obtain ⟨r, _, hlook⟩ := List.mem_filterMap.mp hmem
  obtain ⟨x, hx, hxe⟩ := Option.map_eq_some'.mp hlook
  obtain ⟨hz, -⟩ := Prod.ext_iff.mp hxe
  subst hz
  obtain ⟨hlt, hge⟩ := List.getElem?_eq_some.mp hx
  subst hge
  exact List.getElem_mem ..

/-- C6 (amended): on a renumbered graph, a vertex-subset element that is
absent from the renumbering map is silently dropped from the degree query — an
absent identifier never appears in the result, and adding it to the requested
subset leaves the result unchanged (no error is raised and no zero degree is
reported for it). -/
theorem degree_unknown_silently_dropped (g : GraphState) (dir : Direction)
    (s : List Nat) (z : Nat) (hr : g.renumbered = true)
    (hz : z ∉ g.renumber_map) :
    degreeQuery g (some (z :: s)) dir = degreeQuery g (some s) dir
    ∧ ∀ d, (z, d) ∉ (degreeQuery g (some (z :: s)) dir) := by
  constructor
  · have hsub : (z :: s).filterMap (to_internal_vertex_id g.renumber_map) =
        s.filterMap (to_internal_vertex_id g.renumber_map) := by
      simp [to_internal_vertex_id, hz]
    simp only [degreeQuery, hr, ite_true, hsub]
  · intro d hmem
    exact hz (degreeQuery_result_keys_in_map g (some (z :: s)) dir hr z d hmem)

theorem degree_unknown_silently_dropped_witness :
    degreeQuery gExample (some [99, 10]) Direction.OUT =
      degreeQuery gExample (some [10]) Direction.OUT :=
  (degree_unknown_silently_dropped gExample Direction.OUT [10] 99 rfl
    (by decide)).1

/-! ## Conversion to an undirected graph -/

/-- `simpleGraphImpl.to_undirected(G)`: writes only to `G`.  When `self` is
already undirected the new graph shares `self`'s renumbering map, edge list
and both adjacency views by reference; when `self` is directed the new edge
list is produced by an explicit symmetrization pass over `self`'s edge list,
with the weight column carried through when present.  Returns `none` when
`self` has no edge list (the source would raise an attribute error). -/
def to_undirected (self G : GraphState) : Option (GraphState × GraphState) :=
  match self.edgelist with
  | none => none
  | some el =>
    let G1 := { G with renumbered := self.renumbered,
                       renumber_map := self.renumber_map }
    if self.directed = false then
      some (self, { G1 with edgelist := self.edgelist, adjlist := self.adjlist,
                            transposedadjlist := self.transposedadjlist })
    else
      match el.weights with
      | some ws =>
        let out := symmetrizeCore false true (el.rows.zip ws)
        let elNew : EdgeList :=
          ⟨out.map Prod.fst, some (out.map Prod.snd), none, none⟩
        some (self, { G1 with edgelist := some elNew })
      | none =>
        let out := symmetrizeCore false true (el.rows.map fun r => (r, 0))
        let elNew : EdgeList := ⟨out.map Prod.fst, none, none, none⟩
        some (self, { G1 with edgelist := some elNew })

/-- C9: `to_undirected` on an already-undirected graph shares the original
graph's renumbering map, edge list and both adjacency views unchanged (no new
symmetrization); on a directed graph it builds the new edge list by an
explicit independent symmetrization pass over the directed edge list, with the
weight column preserved exactly when the source edge list has one; in both
cases the source graph itself is returned unmodified. -/
theorem to_undirected_spec (self G : GraphState) (el : EdgeList)
    (hel : self.edgelist = some el) :
    ∃ self' G', to_undirected self G = some (self', G')
      ∧ self' = self
      ∧ G'.renumber_map = self.renumber_map
      ∧ G'.renumbered = self.renumbered
      ∧ (self.directed = false →
          G'.edgelist = self.edgelist ∧ G'.adjlist = self.adjlist ∧
            G'.transposedadjlist = self.transposedadjlist)
      ∧ (self.directed = true →
          (∀ ws, el.weights = some ws →
            G'.edgelist = some
              ⟨(symmetrizeCore false true (el.rows.zip ws)).map Prod.fst,
                some ((symmetrizeCore false true (el.rows.zip ws)).map
                  Prod.snd), none, none⟩)
          ∧ (el.weights = none →
            G'.edgelist = some
              ⟨(symmetrizeCore false true
                  (el.rows.map fun r => (r, 0))).map Prod.fst,
                none, none, none⟩)) := by
  by_cases hd : self.directed = false
  · refine ⟨self,
      { G with renumbered := self.renumbered,
               renumber_map := self.renumber_map,
               edgelist := self.edgelist, adjlist := self.adjlist,
               transposedadjlist := self.transposedadjlist },
      ?_, rfl, rfl, rfl, fun _ => ⟨rfl, rfl, rfl⟩, ?_⟩
    · simp [to_undirected, hel, hd]
    · intro hcon; rw [hd] at hcon; exact Bool.noConfusion hcon
  · have hd' : self.directed = true := by
      cases h : self.directed
      · exact absurd h hd
      · rfl
    match hws : el.weights with
    | some ws =>
      refine ⟨self,
        { G with renumbered := self.renumbered,
                 renumber_map := self.renumber_map,
                 edgelist := some
                   ⟨(symmetrizeCore false true (el.rows.zip ws)).map Prod.fst,
                     some ((symmetrizeCore false true
                       (el.rows.zip ws)).map Prod.snd), none, none⟩ },
        ?_, rfl, rfl, rfl, ?_, ?_⟩
      · simp [to_undirected, hel, hd', hws]
      · intro hcon; rw [hcon] at hd; exact absurd rfl hd
      · intro _
        constructor
        · intro ws' hws'
          obtain rfl := Option.some.inj hws'
          rfl
        · intro hcon; exact Option.noConfusion hcon
    | none =>
      refine ⟨self,
        { G with renumbered := self.renumbered,
                 renumber_map := self.renumber_map,
                 edgelist := some
                   ⟨(symmetrizeCore false true
                       (el.rows.map fun r => (r, 0))).map Prod.fst,
                     none, none, none⟩ },
        ?_, rfl, rfl, rfl, ?_, ?_⟩
      · simp [to_undirected, hel, hd', hws]
      · intro hcon; rw [hcon] at hd; exact absurd rfl hd
      · intro _
        constructor
        · intro ws' hws'; exact Option.noConfusion hws'
        · intro _; rfl

theorem to_undirected_spec_witness :
    ∃ self' G', to_undirected gExample gExample = some (self', G')
      ∧ self' = gExample := by
  obtain ⟨self', G', h1, h2, -⟩ :=
    to_undirected_spec gExample gExample elExample rfl
  exact ⟨self', G', h1, h2⟩

/-! ## Deriving views: coordinate list to CSR and back -/

/-- Modelled from the spec: `graph_primtypes_wrapper.view_adj_list` (not among
the analysed sources) derives the forward compressed adjacency by sorting the
coordinate edges by source — stably, expressed here as bucket concatenation —
and grouping into CSR form: `offsets[i]` counts the edges with source below
`i` and `indices` lists the destinations grouped by source row. -/
def csrOfCoo (V : Nat) (rows : List (Nat × Nat)) : AdjListRep :=
  { offsets := (List.range (V + 1)).map fun i => rows.countP fun r => r.1 < i,
    indices := (List.range V).flatMap fun i =>
      (rows.filter fun r => r.1 = i).map Prod.snd,
    adjWeights := none }

/-- Modelled from the spec: `graph_primtypes_wrapper.view_edge_list` (not
among the analysed sources) expands the offsets/indices of an adjacency view
back into parallel source/destination sequences: row `i` spans
`indices[offsets[i] : offsets[i+1]]`. -/
def cooOfCsr (a : AdjListRep) : List (Nat × Nat) :=
  (List.range (a.offsets.length - 1)).flatMap fun i =>
    ((a.indices.drop (a.offsets.getD i 0)).take
      (a.offsets.getD (i + 1) 0 - a.offsets.getD i 0)).map fun j => (i, j)

/-- `simpleGraphImpl.view_adj_list`: returns the cached forward adjacency if
present; otherwise reuses the transposed adjacency for an undirected graph, or
derives the CSR form from the edge list through the wrapper; the derived view
is cached without touching the edge list. -/
def view_adj_list (g : GraphState) : Option (AdjListRep × GraphState) :=
  match g.adjlist with
  | some a => some (a, g)
  | none =>
    match g.transposedadjlist, g.directed with
    | some t, false => some (t, { g with adjlist := some t })
    | _, _ =>
      match g.edgelist with
      | some el =>
        let a := csrOfCoo (internalVertexCount g) el.rows
        some (a, { g with adjlist := some a })
      | none => none

/-- `simpleGraphImpl.delete_edge_list`. -/
def delete_edge_list (g : GraphState) : GraphState := { g with edgelist := none }

/-- The derivation step of `simpleGraphImpl.view_edge_list` (lines 417-419):
if the edge list is absent it is recomputed through the wrapper from whichever
adjacency view is present and cached, leaving the adjacency views in place. -/
def ensure_edge_list (g : GraphState) : Option (EdgeList × GraphState) :=
  match g.edgelist with
  | some el => some (el, g)
  | none =>
    match g.adjlist with
    | some a =>
      let el : EdgeList := ⟨cooOfCsr a, none, none, none⟩
      some (el, { g with edgelist := some el })
    | none =>
      match g.transposedadjlist with
      | some t =>
        let el : EdgeList := ⟨(cooOfCsr t).map Prod.swap, none, none, none⟩
        some (el, { g with edgelist := some el })
      | none => none

theorem countP_lt_succ_split (rows : List (Nat × Nat)) (i : Nat) :
    (rows.countP fun r => r.1 < i + 1) =
      (rows.countP fun r => r.1 < i) + (rows.countP fun r => r.1 = i) := by
  induction rows with
  | nil => rfl
  | cons a t ih =>
    rw [List.countP_cons, List.countP_cons, List.countP_cons, ih]
    rcases a with ⟨x, y⟩
    simp only [decide_eq_true_eq]
    split_ifs <;> omega

theorem flatMap_bucket_length (rows : List (Nat × Nat)) (i : Nat) :
    ((List.range i).flatMap fun j =>
        (rows.filter fun r => r.1 = j).map Prod.snd).length =
      rows.countP fun r => r.1 < i := by
  induction i with
  | zero =>
    simp only [List.range_zero, List.flatMap_nil]
    exact (List.countP_eq_zero.mpr (by simp)).symm
  | succ i ih =>
    rw [List.range_succ, List.flatMap_append, List.length_append, ih,
      countP_lt_succ_split]
    simp [List.countP_eq_length_filter]

theorem flatMap_congr_mem {α β : Type} (l : List α) (f g : α → List β)
    (h : ∀ a ∈ l, f a = g a) : l.flatMap f = l.flatMap g := by
  induction l with
  | nil => rfl
  | cons a t ih =>
    rw [List.flatMap_cons, List.flatMap_cons, h a (List.mem_cons_self a t),
      ih fun a ha => h a (List.mem_cons_of_mem _ ha)]

theorem flatMap_ite_cons_perm {β : Type} (r : β) (v : Nat) (f : Nat → List β) :
    ∀ l : List Nat, l.Nodup → v ∈ l →
      List.Perm (l.flatMap (fun i => if v = i then r :: f i else f i))
        (r :: l.flatMap f) := by
  intro l
  induction l with
  | nil => intro _ hv; exact absurd hv (List.not_mem_nil v)
  | cons a t ih =>
    intro hnd hv
    obtain ⟨hat, hnt⟩ := List.nodup_cons.mp hnd
    rw [List.flatMap_cons, List.flatMap_cons]
    rcases List.mem_cons.mp hv with rfl | hvt
    · rw [if_pos rfl]
      have hrest : (t.flatMap fun i => if v = i then r :: f i else f i) =
          t.flatMap f :=
        flatMap_congr_mem t _ _ fun i hi =>
          if_neg fun hvi => by subst hvi; exact hat hi
      rw [hrest, List.cons_append]
    · have hva : ¬ v = a := fun hva => hat (hva ▸ hvt)
      rw [if_neg hva]
      have h1 : List.Perm
          (f a ++ t.flatMap (fun i => if v = i then r :: f i else f i))
          (f a ++ (r :: t.flatMap f)) :=
        List.Perm.append_left (f a) (ih hnt hvt)
      exact h1.trans List.perm_middle

theorem flatMap_filter_perm (V : Nat) :
    ∀ rows : List (Nat × Nat), (∀ r ∈ rows, r.1 < V) →
      List.Perm
        ((List.range V).flatMap (fun i => rows.filter fun r => r.1 = i))
        rows := by
  intro rows
  induction rows with
  | nil => intro _; simp
  | cons r t ih =>
    intro hv
    have hfun : (fun i => (r :: t).filter fun x => x.1 = i) =
        fun i => if r.1 = i then r :: t.filter (fun x => x.1 = i)
          else t.filter fun x => x.1 = i := by
      funext i
      rw [List.filter_cons]
      by_cases h : r.1 = i
      · rw [if_pos h, if_pos (by simpa using h)]
      · rw [if_neg h, if_neg (by simpa using h)]
    rw [hfun]
    have h1 : List.Perm
        ((List.range V).flatMap (fun i =>
          if r.1 = i then r :: t.filter (fun x => x.1 = i)
          else t.filter fun x => x.1 = i))
        (r :: (List.range V).flatMap (fun i => t.filter fun x => x.1 = i)) :=
      flatMap_ite_cons_perm r r.1 _ (List.range V) (List.nodup_range V)
        (List.mem_range.mpr (hv r (List.mem_cons_self r t)))
    exact h1.trans
      (List.Perm.cons r (ih fun x hx => hv x (List.mem_cons_of_mem _ hx)))

theorem csrOfCoo_offsets_getD (V : Nat) (rows : List (Nat × Nat)) (i : Nat)
    (h : i < V + 1) :
    (csrOfCoo V rows).offsets.getD i 0 = rows.countP fun r => r.1 < i := by
  simp only [csrOfCoo, List.getD_eq_getElem?_getD, List.getElem?_map,
    List.getElem?_range h, Option.map_some', Option.getD_some]

theorem map_snd_map_pair {l : List (Nat × Nat)} {i : Nat}
    (hmem : ∀ p ∈ l, p.1 = i) :
    ((l.map Prod.snd).map fun j => (i, j)) = l := by
  induction l with
  | nil => rfl
  | cons p t ih =>
    rcases p with ⟨x, y⟩
    have hx : x = i := hmem (x, y) (List.mem_cons_self ..)
    subst hx
    simp only [List.map_cons]
    rw [ih fun q hq => hmem q (List.mem_cons_of_mem _ hq)]

theorem cooOfCsr_csrOfCoo (V : Nat) (rows : List (Nat × Nat))
    (hv : ∀ r ∈ rows, r.1 < V) :
    List.Perm (cooOfCsr (csrOfCoo V rows)) rows := by
  have hlen : (csrOfCoo V rows).offsets.length - 1 = V := by
    simp [csrOfCoo]
  have hslice : ∀ i ∈ List.range V,
      ((((csrOfCoo V rows).indices.drop
          ((csrOfCoo V rows).offsets.getD i 0)).take
        ((csrOfCoo V rows).offsets.getD (i + 1) 0 -
          (csrOfCoo V rows).offsets.getD i 0)).map fun j => (i, j)) =
      rows.filter fun r => r.1 = i := by
    intro i hi
    have hiV := List.mem_range.mp hi
    rw [csrOfCoo_offsets_getD V rows i (by omega),
      csrOfCoo_offsets_getD V rows (i + 1) (by omega)]
    have hVsum : V = (i + 1) + (V - (i + 1)) := by omega
    have hdecomp : List.range V =
        (List.range i ++ [i]) ++
          ((List.range (V - (i + 1))).map fun x => (i + 1) + x) := by
      calc List.range V
          = List.range ((i + 1) + (V - (i + 1))) := by rw [← hVsum]
        _ = List.range (i + 1) ++
              ((List.range (V - (i + 1))).map fun x => (i + 1) + x) :=
            List.range_add ..
        _ = (List.range i ++ [i]) ++
              ((List.range (V - (i + 1))).map fun x => (i + 1) + x) := by
            rw [List.range_succ]
    have hindices : (csrOfCoo V rows).indices =
        ((List.range i).flatMap fun j =>
            (rows.filter fun r => r.1 = j).map Prod.snd) ++
          ((rows.filter fun r => r.1 = i).map Prod.snd ++
            ((((List.range (V - (i + 1))).map fun x => (i + 1) + x).flatMap
              fun j => (rows.filter fun r => r.1 = j).map Prod.snd))) := by
      show ((List.range V).flatMap fun j =>
          (rows.filter fun r => r.1 = j).map Prod.snd) = _
      rw [hdecomp, List.flatMap_append, List.flatMap_append]
      simp [List.append_assoc]
    rw [hindices, ← flatMap_bucket_length rows i, List.drop_left]
    have hcnt : (rows.countP fun r => r.1 < i + 1) -
        (rows.countP fun r => r.1 < i) = rows.countP fun r => r.1 = i := by
      rw [countP_lt_succ_split]; omega
    rw [flatMap_bucket_length rows i, hcnt]
    have htake : ((rows.filter fun r => r.1 = i).map Prod.snd).length =
        rows.countP fun r => r.1 = i := by
      simp [List.countP_eq_length_filter]
    rw [← htake, List.take_left]
    exact map_snd_map_pair fun p hp => by simpa using List.of_mem_filter hp
  have hcoo : cooOfCsr (csrOfCoo V rows) =
      (List.range V).flatMap (fun i => rows.filter fun r => r.1 = i) := by
    simp only [cooOfCsr, hlen]
    exact flatMap_congr_mem (List.range V) _ _ hslice
  rw [hcoo]
  exact flatMap_filter_perm V rows hv

/-- C8: with a populated coordinate view and no adjacency views, deriving the
forward adjacency caches the CSR form without discarding the coordinate view;
re-deriving the coordinate view while it is still cached returns it as is; and
re-deriving it after the coordinate view has been dropped expands the CSR form
back into exactly the same multiset of edges as the original coordinate view,
without discarding the adjacency view it was derived from. -/
theorem view_derivation_roundtrip (g : GraphState) (el : EdgeList)
    (hel : g.edgelist = some el) (ha : g.adjlist = none)
    (ht : g.transposedadjlist = none)
    (hv : ∀ r ∈ el.rows, r.1 < internalVertexCount g) :
    ∃ a g1, view_adj_list g = some (a, g1)
      ∧ g1.edgelist = some el
      ∧ (∃ g2, ensure_edge_list g1 = some (el, g2))
      ∧ ∃ el2 g3, ensure_edge_list (delete_edge_list g1) = some (el2, g3)
          ∧ g3.adjlist = some a
          ∧ List.Perm el2.rows el.rows := by
  refine ⟨csrOfCoo (internalVertexCount g) el.rows,
    { g with adjlist := some (csrOfCoo (internalVertexCount g) el.rows) },
    ?_, hel,
    ⟨{ g with adjlist := some (csrOfCoo (internalVertexCount g) el.rows) },
      ?_⟩, ?_⟩
  · simp [view_adj_list, ha, ht, hel]
  · simp [ensure_edge_list, hel]
  · refine ⟨⟨cooOfCsr (csrOfCoo (internalVertexCount g) el.rows),
      none, none, none⟩,
      { g with adjlist := some (csrOfCoo (internalVertexCount g) el.rows),
               edgelist := some ⟨cooOfCsr (csrOfCoo (internalVertexCount g)
                 el.rows), none, none, none⟩ }, ?_, rfl, ?_⟩
    · simp [ensure_edge_list, delete_edge_list]
    · exact cooOfCsr_csrOfCoo (internalVertexCount g) el.rows hv

theorem view_derivation_roundtrip_witness :
    ∃ a g1, view_adj_list gExample = some (a, g1)
      ∧ g1.edgelist = some elExample
      ∧ (∃ g2, ensure_edge_list g1 = some (elExample, g2))
      ∧ ∃ el2 g3, ensure_edge_list (delete_edge_list g1) = some (el2, g3)
          ∧ g3.adjlist = some a
          ∧ List.Perm el2.rows elExample.rows :=
  view_derivation_roundtrip gExample elExample rfl rfl rfl (by decide)

/-! ## Graph construction from an edge list -/

/-- The runtime type of the input received by `__from_edgelist`: a
`cudf.DataFrame`, a `dask_cudf.DataFrame`, or anything else. -/
inductive DFKind where
  | cudfDF
  | daskCudfDF
  | otherInput
deriving DecidableEq, Repr

/-- The input dataframe of `__from_edgelist`: its runtime kind, its column
names, and the (integer-valued) contents of each named column. -/
structure InputDF where
  kind : DFKind
  columns : List String
  col : String → List Nat

/-- The edge-attribute resolution of `__from_edgelist` (lines 162-204):
`edge_attr` may not be combined with the separate `weight`/`edge_id`/
`edge_type` parameters; its columns must exist; it must name one or three
columns; and three attributes (weight, edge id, edge type) are rejected for an
undirected graph because symmetrization would fabricate edges with undefined
IDs and types.  Returns the resolved weight/id/type column names and the
weighted flag. -/
def resolveAttrs (cols : List String) (edge_attr : Option (List String))
    (weight edge_id edge_type : Option String) (directed : Bool) :
    Except GraphError (Option String × Option String × Option String × Bool) :=
  match edge_attr with
  | some ea =>
    if weight.isSome ∨ edge_id.isSome ∨ edge_type.isSome then
      .error .attrParamConflict
    else if ¬ (ea.all (· ∈ cols)) then .error .attrNotFound
    else if ea.length = 1 then .ok (ea[0]?, none, none, true)
    else if ea.length = 3 then
      if ¬ directed then .error .conflictingAttributes
      else .ok (ea[0]?, ea[1]?, ea[2]?, true)
    else .error .badAttrCount
  | none => .ok (weight, edge_id, edge_type, weight.isSome)

/-- The renumbering step used by `__from_edgelist`, following the spec model
of `NumberMap.renumber`: the rows are rewritten to internal IDs and the
renumbering table is returned. -/
def renumberImpl (rows : List (Nat × Nat)) : List (Nat × Nat) × List Nat :=
  let m := buildRenumberMap (rows.map Prod.fst) (rows.map Prod.snd)
  (rows.map fun r => (m.indexOf r.1, m.indexOf r.2), m)

/-- Modelled from the spec: the full `symmetrize` entry point fails with
`ConflictingAttributeError` when user-provided edge IDs or edge types are
requested together with `make_symmetric=true`; otherwise it runs the
symmetrization pipeline. -/
def symmetrizeChecked (hasIds hasTypes multi mksym : Bool)
    (rows : List ((Nat × Nat) × Nat)) :
    Except GraphError (List ((Nat × Nat) × Nat)) :=
  if mksym ∧ (hasIds ∨ hasTypes) then .error .conflictingAttributes
  else .ok (symmetrizeCore multi mksym rows)

/-- `simpleGraphImpl.__from_edgelist`, parameterized by the renumbering and
symmetrization steps so that theorems can quantify over them (they run after
the attribute checks and the consolidation step).  The stages are, in source
order: column-name verification, attribute resolution, consolidation (the
dataframe-type and single-GPU size checks), renumbering, symmetrization, and
edge-list construction. -/
def from_edgelist_aux
    (rn : List (Nat × Nat) → List (Nat × Nat) × List Nat)
    (sym : Bool → Bool → Bool → Bool → List ((Nat × Nat) × Nat) →
      Except GraphError (List ((Nat × Nat) × Nat)))
    (input : InputDF) (source destination : String)
    (edge_attr : Option (List String))
    (weight edge_id edge_type : Option String)
    (renumber directed multi : Bool) :
    Except GraphError GraphState :=
  if ¬ (source ∈ input.columns ∧ destination ∈ input.columns) then
    .error .colNotFound
  else
    match resolveAttrs input.columns edge_attr weight edge_id edge_type
        directed with
    | .error e => .error e
    | .ok (weightName, idName, typeName, weightedFlag) =>
      match input.kind with
      | .otherInput => .error .inputTypeError
      | _ =>
        if (input.col source).length > 2147483100 then .error .tooBig
        else
          let rows0 := (input.col source).zip (input.col destination)
          let step := if renumber then
              let rm := rn rows0
              (rm.1, rm.2, true)
            else (rows0, ([] : List Nat), false)
          let rowsW := match weightName with
            | some wn => step.1.zip (input.col wn)
            | none => step.1.map fun r => (r, 0)
          match sym idName.isSome typeName.isSome multi (¬ directed) rowsW with
          | .error e => .error e
          | .ok out =>
            .ok { edgelist := some
                    ⟨out.map Prod.fst,
                     if weightedFlag then some (out.map Prod.snd) else none,
                     if directed then idName.map input.col else none,
                     if directed then typeName.map input.col else none⟩,
                  adjlist := none, transposedadjlist := none,
                  renumber_map := step.2.1, renumbered := step.2.2,
                  directed := directed, multi_edge := multi,
                  node_count := none, edge_count := none,
                  weighted := weightedFlag }

/-- `simpleGraphImpl.__from_edgelist` with its actual renumbering and
symmetrization steps. -/
def from_edgelist (input : InputDF) (source destination : String)
    (edge_attr : Option (List String))
    (weight edge_id edge_type : Option String)
    (renumber directed multi : Bool) : Except GraphError GraphState :=
  from_edgelist_aux renumberImpl symmetrizeChecked input source destination
    edge_attr weight edge_id edge_type renumber directed multi

/-- C4: a construction request that supplies user-provided edge IDs and edge
types together with an undirected graph fails with the conflicting-attribute
error and produces no graph — through the three-column `edge_attr` form the
rejection happens before renumbering or symmetrization (for every renumbering
and symmetrization step), and through the separate `edge_id`/`edge_type`
parameters the symmetrization entry point rejects it; the same three-attribute
input is accepted for a directed graph. -/
theorem edge_ids_types_undirected_rejected
    (input : InputDF) (source destination : String) (a b c : String)
    (hs : source ∈ input.columns) (hd : destination ∈ input.columns)
    (ha : a ∈ input.columns) (hb : b ∈ input.columns)
    (hc : c ∈ input.columns) :
    (∀ rn sym renumber multi,
      from_edgelist_aux rn sym input source destination (some [a, b, c])
        none none none renumber false multi = .error .conflictingAttributes)
    ∧ (∀ w i t renumber multi,
      input.kind = DFKind.cudfDF →
      ¬ (input.col source).length > 2147483100 →
      from_edgelist input source destination none w (some i) (some t)
        renumber false multi = .error .conflictingAttributes)
    ∧ (∀ renumber multi,
      input.kind = DFKind.cudfDF →
      ¬ (input.col source).length > 2147483100 →
      (from_edgelist input source destination (some [a, b, c])
        none none none renumber true multi).isOk = true) := by
  refine ⟨?_, ?_, ?_⟩
  · intro rn sym renumber multi
    simp [from_edgelist_aux, hs, hd, resolveAttrs, ha, hb, hc]
  · intro w i t renumber multi hkind hsize
    simp [from_edgelist, from_edgelist_aux, hs, hd, resolveAttrs, hkind,
      hsize, symmetrizeChecked]
  · intro renumber multi hkind hsize
    simp [from_edgelist, from_edgelist_aux, hs, hd, resolveAttrs, ha, hb, hc,
      hkind, hsize, symmetrizeChecked, Except.isOk, Except.toBool]

/-- A concrete five-column cudf input used to instantiate the construction
theorems. -/
def smallDF : InputDF :=
  { kind := DFKind.cudfDF,
    columns := ["s", "d", "w", "i", "t"],
    col := fun c => if c = "s" then [0, 1] else if c = "d" then [1, 2]
      else [7, 8] }

theorem edge_ids_types_undirected_rejected_witness :
    from_edgelist_aux renumberImpl symmetrizeChecked smallDF "s" "d"
      (some ["w", "i", "t"]) none none none true false false =
      .error .conflictingAttributes :=
  (edge_ids_types_undirected_rejected smallDF "s" "d" "w" "i" "t"
    (by decide) (by decide) (by decide) (by decide) (by decide)).1
    renumberImpl symmetrizeChecked true false

/-- C10: an edge list longer than 2147483100 rows is rejected as too big to
fit in a single GPU before any renumbering or symmetrization is attempted
(the failure is the same for every renumbering and symmetrization step), for
both supported dataframe kinds; an input that is neither of the two supported
dataframe kinds is rejected with a type error. -/
theorem from_edgelist_size_and_type_guard
    (input : InputDF) (source destination : String)
    (hs : source ∈ input.columns) (hd : destination ∈ input.columns) :
    (∀ rn sym renumber directed multi,
      (input.kind = DFKind.cudfDF ∨ input.kind = DFKind.daskCudfDF) →
      (input.col source).length > 2147483100 →
      from_edgelist_aux rn sym input source destination none none none none
        renumber directed multi = .error .tooBig)
    ∧ (∀ rn sym renumber directed multi,
      input.kind = DFKind.otherInput →
      from_edgelist_aux rn sym input source destination none none none none
        renumber directed multi = .error .inputTypeError) := by
  constructor
  · intro rn sym renumber directed multi hkind hsize
    rcases hkind with hkind | hkind <;>
      simp [from_edgelist_aux, hs, hd, resolveAttrs, hkind, hsize]
  · intro rn sym renumber directed multi hkind
    simp [from_edgelist_aux, hs, hd, resolveAttrs, hkind]

/-- A two-column cudf input with more rows than fit on a single GPU. -/
def hugeDF : InputDF :=
  { kind := DFKind.cudfDF,
    columns := ["s", "d"],
    col := fun c => if c = "s" then List.replicate 2147483101 0
      else if c = "d" then List.replicate 2147483101 1 else [] }

theorem from_edgelist_size_and_type_guard_witness :
    from_edgelist_aux renumberImpl symmetrizeChecked hugeDF "s" "d"
      none none none none true true false = .error .tooBig :=
  (from_edgelist_size_and_type_guard hugeDF "s" "d" (by decide)
    (by decide)).1 renumberImpl symmetrizeChecked true true false
    (Or.inl rfl)
    (by
      have h1 : hugeDF.col "s" = List.replicate 2147483101 0 := rfl
      rw [h1, List.length_replicate]
      omega)

end Cugraph
